import Mathlib

/-!
Verification of the zflake distributed unique ID generator and its base62
codec, against a shallow embedding of the Go source.

The embedding follows the source files:
  - `internal/base62/base62.go` (namespace `Base62`)
  - `zflake.go` (namespace `Zflake`)

Machine integers are modelled as `Nat`/`Int` with explicit wrapping
(`% 2^64`, `wrap64`) exactly where the Go code can overflow.  Go's `>>` on
`int64` is an arithmetic shift, modelled as `Int.fdiv` by a power of two;
Go's `/` on `int64` truncates towards zero, modelled as `Int.tdiv`; Go's
bitwise `&`/`|` on `int64` are modelled through the two's-complement image
`toU64`.

`base62.Encode` computes its output length with `math.Log` on `float64`.
That computation is modelled bit-exactly: `D64` is the dyadic-rational
image of an IEEE-754 binary64 value, `roundD` is round-to-nearest-even to
53 significant bits, and `goLog` transliterates the FDLIBM algorithm used
by Go's `math.Log` (pure-Go version, one rounding per arithmetic
operation, no fused multiply-add).  All definitions are executable so the
kernel can evaluate them at concrete inputs.
-/

namespace Base62

/-- The base62 alphabet `[0-9][A-Z][a-z]` from `base62.go`. -/
def alpha : String := "0123456789ABCDEFGHIJKLMNOPQRSTUVWXYZabcdefghijklmnopqrstuvwxyz"

def alphaList : List Char := alpha.toList

/-- `alpha[d]`: the character used for digit value `d` (always called with
`d < 62`, so the default is never hit). -/
def alphaChar (d : Nat) : Char := alphaList.getD d '0'

/-- First index of a character in a list of characters. -/
def lookupIdx : List Char → Char → Option Nat
  | [], _ => none
  | a :: as, c => if c = a then some 0 else (lookupIdx as c).map (· + 1)

/-- The `alphabetMap` of `base62.go`: maps an alphabet character to its
index; the characters of `alpha` are pairwise distinct, so the map built
by the `init` loop is exactly index lookup. -/
def alphabetMap (c : Char) : Option Nat := lookupIdx alphaList c

/-- The accumulation loop of `Decode`; `uint64` arithmetic wraps. -/
def decodeLoop : List Char → Nat → Option Nat
  | [], res => some res
  | c :: cs, res =>
    match alphabetMap c with
    | none => none
    | some v => decodeLoop cs ((62 * res + v) % 2 ^ 64)

/-- `Decode` from `base62.go`: `none` models `(0, ErrInvalidSID)`. -/
def Decode (s : String) : Option Nat := decodeLoop s.toList 0

/-- A dyadic rational `m * 2 ^ e`, the exact value of a finite `float64`. -/
structure D64 where
  m : Int
  e : Int
deriving DecidableEq

/-- Fuelled floor of the base-2 logarithm (index of the leading bit);
structural recursion so the kernel can evaluate it. -/
def lg2F : Nat → Nat → Nat
  | 0, _ => 0
  | fuel + 1, n => if n ≤ 1 then 0 else lg2F fuel (n / 2) + 1

def lg2 (n : Nat) : Nat := lg2F 800 n

/-- Round `n / 2 ^ k` to the nearest integer, ties to even. -/
def roundOff (n k : Nat) : Nat :=
  let q := n >>> k
  let r := n % 2 ^ k
  if 2 ^ k < 2 * r then q + 1
  else if 2 * r < 2 ^ k then q
  else if q % 2 = 1 then q + 1 else q

/-- Round a dyadic rational to 53 significant bits, nearest, ties to even:
the IEEE-754 binary64 rounding of every value arising below (all values
are far from overflow and underflow). -/
def roundD (x : D64) : D64 :=
  if x.m = 0 then ⟨0, 0⟩
  else
    let n := x.m.natAbs
    let L := lg2 n
    if L ≤ 52 then x
    else ⟨x.m.sign * Int.ofNat (roundOff n (L - 52)), x.e + (L - 52)⟩

/-- Go's `float64(id)` conversion of a `uint64`. -/
def dofNat (n : Nat) : D64 := roundD ⟨Int.ofNat n, 0⟩

/-- `float64` addition. -/
def dadd (a b : D64) : D64 :=
  let e := min a.e b.e
  roundD ⟨a.m * 2 ^ (a.e - e).toNat + b.m * 2 ^ (b.e - e).toNat, e⟩

def dneg (a : D64) : D64 := ⟨-a.m, a.e⟩

/-- `float64` subtraction. -/
def dsub (a b : D64) : D64 := dadd a (dneg b)

/-- `float64` multiplication. -/
def dmul (a b : D64) : D64 := roundD ⟨a.m * b.m, a.e + b.e⟩

/-- `float64` division: 200 guard bits plus a sticky bit make the
round-to-nearest-even of the quotient exact. -/
def ddiv (a b : D64) : D64 :=
  if a.m = 0 then ⟨0, 0⟩
  else
    let na := a.m.natAbs <<< 200
    let nb := b.m.natAbs
    let q := na / nb
    let q2 := if na % nb = 0 then q else q ||| 1
    roundD ⟨a.m.sign * b.m.sign * Int.ofNat q2, a.e - b.e - 200⟩

/-- `float64` strict comparison of exact values. -/
def dltB (a b : D64) : Bool :=
  let e := min a.e b.e
  decide (a.m * 2 ^ (a.e - e).toNat < b.m * 2 ^ (b.e - e).toNat)

/-- Go's `int(x)` conversion: truncation towards zero. -/
def dtruncToInt (x : D64) : Int :=
  if 0 ≤ x.e then x.m * 2 ^ x.e.toNat else Int.tdiv x.m (2 ^ (-x.e).toNat)

/-- Constants of Go `math.Log`, as exact dyadic values of the `float64`
constants in the Go source (`Ln2Hi`, `Ln2Lo`, `L1`..`L7`, `Sqrt2/2`). -/
def ln2Hi : D64 := ⟨6243314766446592, -53⟩

def ln2Lo : D64 := ⟨7382048951581814, -85⟩

def lgC1 : D64 := ⟨6004799503160723, -53⟩

def lgC2 : D64 := ⟨7205759403686404, -54⟩

def lgC3 : D64 := ⟨5146971033736025, -54⟩

def lgC4 : D64 := ⟨8006390766270639, -55⟩

def lgC5 : D64 := ⟨6551322304906206, -55⟩

def lgC6 : D64 := ⟨5517391500461727, -55⟩

def lgC7 : D64 := ⟨5331612937900612, -55⟩

def sqrt2Half : D64 := ⟨6369051672525773, -53⟩

/-- Go `math.Log` (the FDLIBM algorithm of `src/math/log.go`), modelled
for positive finite inputs — the only inputs `Encode` feeds it.  `Frexp`
is exact; every arithmetic operation rounds once to binary64. -/
def goLog (x : D64) : D64 :=
  let L : Nat := lg2 x.m.natAbs
  let f1 : D64 := ⟨x.m, -(L + 1 : Int)⟩
  let ki : Int := x.e + L + 1
  let p : D64 × Int := if dltB f1 sqrt2Half then (dmul f1 ⟨2, 0⟩, ki - 1) else (f1, ki)
  let f := dsub p.1 ⟨1, 0⟩
  let k : D64 := ⟨p.2, 0⟩
  let s := ddiv f (dadd ⟨2, 0⟩ f)
  let s2 := dmul s s
  let s4 := dmul s2 s2
  let t1 := dmul s2 (dadd lgC1 (dmul s4 (dadd lgC3 (dmul s4 (dadd lgC5 (dmul s4 lgC7))))))
  let t2 := dmul s4 (dadd lgC2 (dmul s4 (dadd lgC4 (dmul s4 lgC6))))
  let bigR := dadd t1 t2
  let hfsq := dmul (dmul ⟨1, -1⟩ f) f
  dsub (dmul k ln2Hi) (dsub (dsub hfsq (dadd (dmul s (dadd hfsq bigR)) (dmul k ln2Lo))) f)

/-- The output length computed by `Encode`:
`int(math.Log(float64(id))/math.Log(base) + 1)`. -/
def encLen (id : Nat) : Int :=
  dtruncToInt (dadd (ddiv (goLog (dofNat id)) (goLog (dofNat 62))) ⟨1, 0⟩)

/-- The digit-filling loop of `Encode` (`for i := n - 2; i >= 0; i--`):
fills `count` positions right to left above the already-placed suffix. -/
def fillChars : Nat → Nat → List Char → List Char
  | 0, _, acc => acc
  | count + 1, q, acc => fillChars count (q / 62) (alphaChar (q % 62) :: acc)

/-- `Encode` from `base62.go`. -/
def Encode (id : Nat) : String :=
  if id = 0 then "0"
  else
    let n := (encLen id).toNat
    String.mk (fillChars (n - 1) (id / 62) [alphaChar (id % 62)])

/-- Modelled from the spec: the digit string of the "minimal-length string
of alphabet symbols representing `value` in base 62, most-significant
symbol first, with no leading zero symbols" (fuelled recursion). -/
def canonFuel : Nat → Nat → List Char
  | 0, _ => []
  | fuel + 1, v => if v = 0 then [] else canonFuel fuel (v / 62) ++ [alphaChar (v % 62)]

/-- Modelled from the spec: the minimal-length base62 representation
(`"0"` for zero); 64 digits of fuel cover every value below `62 ^ 64`. -/
def canon62 (v : Nat) : String :=
  if v = 0 then "0" else String.mk (canonFuel 64 v)

/-- Number of digits in the minimal base62 representation (0 for 0). -/
def len62 (v : Nat) : Nat := (canonFuel 64 v).length

end Base62

namespace Zflake

/-- `BucketLen`: length of a zflake time bucket in nanoseconds (10 ms). -/
def BucketLen : Int := 10000000

def BitLenTim : Nat := 38

def BitLenSeq : Nat := 13

def BitLenGID : Nat := 63 - BitLenTim - BitLenSeq

/-- Default epoch 2020-01-01T00:00:00Z in nanoseconds since Unix epoch. -/
def DefaultEpoch : Int := 1577836800000000000

def DefaultGID : Nat := 0

/-- `maskSeq` of `zflake.go`, as the natural number with the same bits. -/
def maskSeqN : Nat := (2 ^ BitLenSeq - 1) <<< BitLenGID

/-- `maskGID` of `zflake.go`. -/
def maskGIDN : Nat := 2 ^ BitLenGID - 1

def seqMax : Nat := 2 ^ BitLenSeq - 1

def gidMax : Nat := 2 ^ BitLenGID - 1

/-- Wrap an integer into the signed 64-bit range, as Go `int64`
arithmetic does on overflow. -/
def wrap64 (x : Int) : Int := (x + 2 ^ 63) % 2 ^ 64 - 2 ^ 63

/-- Two's-complement image of an `int64` value as an unsigned number. -/
def toU64 (x : Int) : Nat := (x % 2 ^ 64).toNat

/-- Reinterpret an unsigned 64-bit pattern as a signed `int64` value. -/
def ofU64 (n : Nat) : Int := if n < 2 ^ 63 then (n : Int) else (n : Int) - 2 ^ 64

/-- The `Gen` struct of `zflake.go`.  The injected clock `now` and the
mutex are not state: clock readings are passed explicitly to `step`, and
the lock makes each call atomic, which is what the step function models. -/
structure Gen where
  epoch : Int
  epochns : Int
  gid : Nat
  bucket : Int
  seq : Nat
deriving DecidableEq

/-- `bucketsSince`: `(tim.UTC().UnixNano() - gen.epochns) / BucketLen`
with `int64` subtraction (wrapping) and Go's truncated division. -/
def bucketsSince (g : Gen) (timns : Int) : Int :=
  Int.tdiv (wrap64 (timns - g.epochns)) BucketLen

/-- The ID composition of `NextFID`:
`gen.bucket<<(BitLenSeq+BitLenGID) | int64(gen.seq)<<BitLenGID | int64(gen.gid)`
with the `int64` shift wrapping at 64 bits. -/
def composeFID (g : Gen) : Int :=
  ofU64 ((toU64 g.bucket <<< (BitLenSeq + BitLenGID) % 2 ^ 64) ||| g.seq <<< BitLenGID ||| g.gid)

/-- The instant `sleep` waits for: `gen.epochns + gen.bucket*BucketLen`
in `int64` arithmetic. -/
def sleepTargetNs (g : Gen) : Int := wrap64 (g.epochns + wrap64 (g.bucket * BucketLen))

/-- Result of one `NextFID` call: the new generator state, the returned
ID (`none` when the call panics over the time limit), and the instant the
call slept until (`none` when it did not sleep). -/
structure StepOut where
  gen : Gen
  fid : Option Int
  sleepTarget : Option Int
deriving DecidableEq

/-- The tail of `NextFID` after the bucket/seq update: panic check and
ID composition. -/
def finish (g : Gen) (st : Option Int) : StepOut :=
  if 2 ^ BitLenTim ≤ g.bucket then ⟨g, none, st⟩ else ⟨g, some (composeFID g), st⟩

/-- One `NextFID` call, given the clock reading `timns` (nanoseconds)
that `gen.now()` returns inside the call.  `gen.seq += 1` is `uint16`
arithmetic; `gen.bucket++` is `int64` arithmetic. -/
def step (g : Gen) (timns : Int) : StepOut :=
  let now := bucketsSince g timns
  if g.bucket < now then
    finish { g with bucket := now, seq := 0 } none
  else if seqMax < (g.seq + 1) % 2 ^ 16 then
    let g2 : Gen := { g with bucket := wrap64 (g.bucket + 1), seq := 0 }
    finish g2 (some (sleepTargetNs g2))
  else
    finish { g with seq := (g.seq + 1) % 2 ^ 16 } none

/-- The decoded field map returned by `DecodeFID`. -/
structure DecodedFID where
  fid : Int
  msb : Int
  tim : Int
  seq : Int
  gid : Int
deriving DecidableEq

/-- `DecodeFID` of `zflake.go`: `>>` on `int64` is an arithmetic shift
(floor division by a power of two); `&` with the positive masks acts on
the two's-complement image. -/
def DecodeFID (fid : Int) : DecodedFID :=
  { fid := fid
    msb := Int.fdiv fid (2 ^ 63)
    tim := Int.fdiv fid (2 ^ (BitLenSeq + BitLenGID))
    seq := Int.ofNat ((toU64 fid &&& maskSeqN) >>> BitLenGID)
    gid := Int.ofNat (toU64 fid &&& maskGIDN) }

/-- A constructor option, by the single value it injects: `GID(g)`,
`Epoch(t)` (as `t.UTC().UnixNano()`), or `Clock(clk)` (as the instant
the injected clock reports during `NewGen`). -/
inductive GenOption where
  | gid (g : Nat)
  | epoch (ns : Int)
  | clock (t : Int)
deriving DecidableEq

/-- State while `NewGen` applies options: the generator record under
construction plus the instant `gen.now()` would report. -/
structure GenInit where
  gen : Gen
  nowNs : Int
deriving DecidableEq

/-- Apply one option; `none` models the panic of `GID` on an
out-of-bounds generator ID. -/
def applyOpt (gi : GenInit) : GenOption → Option GenInit
  | .gid g => if gidMax < g then none else some { gi with gen := { gi.gen with gid := g } }
  | .epoch ns =>
      some { gi with gen := { gi.gen with epoch := Int.tdiv DefaultEpoch BucketLen, epochns := ns } }
  | .clock t => some { gi with nowNs := t }

def applyOpts : GenInit → List GenOption → Option GenInit
  | gi, [] => some gi
  | gi, o :: os =>
    match applyOpt gi o with
    | none => none
    | some gi2 => applyOpts gi2 os

/-- The zero-valued `Gen` that `NewGen` starts from (`seq` is seeded to
`1<<BitLenSeq - 1`), together with the system clock reading `sysNow`
used when no `Clock` option is injected. -/
def initGen (sysNow : Int) : GenInit :=
  { gen := { epoch := 0, epochns := 0, gid := DefaultGID, bucket := 0, seq := 2 ^ BitLenSeq - 1 }
    nowNs := sysNow }

/-- `NewGen`: the outer `Option` is `none` when an option panics; the
inner `Option` is `none` when `NewGen` returns `nil`. -/
def NewGen (sysNow : Int) (opts : List GenOption) : Option (Option Gen) :=
  (applyOpts (initGen sysNow) opts).map fun gi =>
    if gi.gen.epoch = 0 then
      some { gi.gen with epoch := Int.tdiv DefaultEpoch BucketLen, epochns := DefaultEpoch }
    else if gi.nowNs < gi.gen.epochns then none
    else some gi.gen

/-- The IDs returned by successive `NextFID` calls under the clock
readings `ts`; a panicking call aborts the sequence. -/
def run : Gen → List Int → List Int
  | _, [] => []
  | g, t :: ts =>
    match (step g t).fid with
    | none => []
    | some v => v :: run (step g t).gen ts

/-- Invariant of every generator state reachable from `NewGen` through
returning `NextFID` calls. -/
def Inv (g : Gen) : Prop := 0 ≤ g.bucket ∧ g.bucket < 2 ^ BitLenTim ∧ g.seq ≤ seqMax

instance (g : Gen) : Decidable (Inv g) := by
  unfold Inv
  infer_instance

/-- The composed ID value of a state, in plain arithmetic form. -/
def fidVal (g : Gen) : Int := g.bucket * 2 ^ 25 + g.seq * 2 ^ 12 + g.gid

/-- Modelled from the spec: the "masked 38-bit time field" a decoder
would report if `tim` were extracted by mask rather than by arithmetic
shift. -/
def maskedTim38 (fid : Int) : Int := Int.ofNat ((toU64 fid >>> 25) &&& (2 ^ 38 - 1))

/-- The monotonicity relation between two successive IDs: the decoded
time bucket does not decrease, and within an unchanged bucket the
decoded sequence strictly increases. -/
def monoRel (a b : Int) : Prop :=
  (DecodeFID a).tim ≤ (DecodeFID b).tim ∧
    ((DecodeFID a).tim = (DecodeFID b).tim → (DecodeFID a).seq < (DecodeFID b).seq)

end Zflake

section Smoke

example : Base62.Decode "pt0" = some 0x30b1e := by decide

example : Base62.Encode 0 = "0" := rfl

example : Zflake.bucketsSince (Zflake.initGen 0).gen 25000000 = 2 := by decide

end Smoke

namespace Zflake

theorem bitLen_sg : BitLenSeq + BitLenGID = 25 := rfl

theorem bitLen_gid : BitLenGID = 12 := rfl

theorem bitLen_tim : BitLenTim = 38 := rfl

/-- Bits `k .. k+m-1` of `x`, extracted by masking in place. -/
theorem and_mask_mid (x k m : Nat) :
    x &&& (2 ^ m - 1) <<< k = x / 2 ^ k % 2 ^ m * 2 ^ k := by
  rw [← Nat.shiftLeft_eq (x / 2 ^ k % 2 ^ m) k, ← Nat.shiftRight_eq_div_pow]
  apply Nat.eq_of_testBit_eq
  intro j
  rcases Nat.lt_or_ge j k with hj | hj
  · simp [Nat.testBit_shiftLeft, Nat.not_le.mpr hj]
  · have hjk : k + (j - k) = j := by omega
    simp only [Nat.testBit_and, Nat.testBit_shiftLeft, Nat.testBit_mod_two_pow,
      Nat.testBit_shiftRight, Nat.testBit_two_pow_sub_one, hjk, hj, decide_True,
      Bool.true_and]
    cases hx : x.testBit j <;> cases hm : decide (j - k < m) <;> simp [hx, hm]

theorem composeFID_eq (g : Gen) (h0 : 0 ≤ g.bucket) (h1 : g.bucket < 2 ^ BitLenTim)
    (h2 : g.seq < 2 ^ BitLenSeq) (h3 : g.gid < 2 ^ BitLenGID) :
    composeFID g = g.bucket * 2 ^ 25 + (g.seq : Int) * 2 ^ 12 + (g.gid : Int) := by
  rw [bitLen_tim] at h1
  have hs : g.seq < 2 ^ 13 := h2
  have hg : g.gid < 2 ^ 12 := h3
  unfold composeFID toU64 ofU64
  rw [bitLen_sg, bitLen_gid]
  have hmod : g.bucket % 2 ^ 64 = g.bucket := by omega
  rw [hmod]
  have hbv : (g.bucket.toNat : Int) = g.bucket := by omega
  have hbN : g.bucket.toNat < 2 ^ 38 := by omega
  set b := g.bucket.toNat with hbdef
  have e1 : b <<< 25 % 2 ^ 64 = b * 2 ^ 25 := by
    rw [Nat.shiftLeft_eq]
    exact Nat.mod_eq_of_lt (by omega)
  have e2 : b * 2 ^ 25 ||| g.seq <<< 12 = b * 2 ^ 25 + g.seq * 2 ^ 12 := by
    rw [Nat.shiftLeft_eq, Nat.mul_comm b (2 ^ 25),
      ← Nat.mul_add_lt_is_or (b := g.seq * 2 ^ 12) (by omega) b]
  have e3 : b * 2 ^ 25 + g.seq * 2 ^ 12 ||| g.gid =
      b * 2 ^ 25 + g.seq * 2 ^ 12 + g.gid := by
    have hsplit : b * 2 ^ 25 + g.seq * 2 ^ 12 = 2 ^ 12 * (2 ^ 13 * b + g.seq) := by ring
    rw [hsplit, ← Nat.mul_add_lt_is_or hg (2 ^ 13 * b + g.seq)]
  rw [e1, e2, e3]
  have hlt : b * 2 ^ 25 + g.seq * 2 ^ 12 + g.gid < 2 ^ 63 := by omega
  rw [if_pos hlt]
  push_cast
  rw [hbv]

theorem decodeFID_composeFID (g : Gen) (h0 : 0 ≤ g.bucket) (h1 : g.bucket < 2 ^ BitLenTim)
    (h2 : g.seq < 2 ^ BitLenSeq) (h3 : g.gid < 2 ^ BitLenGID) :
    DecodeFID (composeFID g) =
      { fid := composeFID g, msb := 0, tim := g.bucket
        seq := (g.seq : Int), gid := (g.gid : Int) } := by
  have hc := composeFID_eq g h0 h1 h2 h3
  rw [bitLen_tim] at h1
  have hs : g.seq < 2 ^ 13 := h2
  have hg : g.gid < 2 ^ 12 := h3
  have hbv : (g.bucket.toNat : Int) = g.bucket := by omega
  have hbN : g.bucket.toNat < 2 ^ 38 := by omega
  set b := g.bucket.toNat with hbdef
  have hcN : composeFID g = ((b * 2 ^ 25 + g.seq * 2 ^ 12 + g.gid : Nat) : Int) := by
    rw [hc]
    push_cast
    rw [hbv]
  set N : Nat := b * 2 ^ 25 + g.seq * 2 ^ 12 + g.gid with hN
  have hN63 : N < 2 ^ 63 := by omega
  unfold DecodeFID
  rw [hcN]
  have hu : toU64 (N : Int) = N := by
    unfold toU64
    have : (N : Int) % 2 ^ 64 = (N : Int) := by omega
    rw [this, Int.toNat_natCast]
  congr 1
  · -- msb
    rw [Int.fdiv_eq_ediv _ (by positivity)]
    omega
  · -- tim
    rw [bitLen_sg, Int.fdiv_eq_ediv _ (by positivity)]
    omega
  · -- seq
    rw [hu, bitLen_gid]
    have hmask : maskSeqN = (2 ^ 13 - 1) <<< 12 := rfl
    rw [hmask, and_mask_mid, Nat.shiftRight_eq_div_pow, Nat.mul_div_cancel _ (by norm_num)]
    have : N / 2 ^ 12 % 2 ^ 13 = g.seq := by omega
    rw [this]
    rfl
  · -- gid
    rw [hu]
    have hmask : maskGIDN = 2 ^ 12 - 1 := rfl
    rw [hmask, Nat.and_pow_two_sub_one_eq_mod]
    have : N % 2 ^ 12 = g.gid := by omega
    rw [this]
    rfl

end Zflake

namespace Zflake

theorem finish_gen (g : Gen) (st : Option Int) : (finish g st).gen = g := by
  unfold finish
  split <;> rfl

theorem finish_sleepTarget (g : Gen) (st : Option Int) : (finish g st).sleepTarget = st := by
  unfold finish
  split <;> rfl

theorem finish_fid_none (g : Gen) (st : Option Int) :
    (finish g st).fid = none ↔ 2 ^ BitLenTim ≤ g.bucket := by
  unfold finish
  split_ifs with h <;> simp [h]

theorem finish_fid_some (g : Gen) (st : Option Int) (v : Int) :
    ((finish g st).fid = some v ↔ g.bucket < 2 ^ BitLenTim ∧ v = composeFID g) := by
  unfold finish
  split_ifs with h <;> simp [h, eq_comm] <;> omega

/-- Claim C8: a `NextFID` call panics (returns no value) exactly when the
updated bucket has reached `2 ^ BitLenTim`; whenever the updated bucket is
below that bound the call returns normally. -/
theorem nextFID_panic_iff_bucket_exhausted (g : Gen) (t : Int) :
    (step g t).fid = none ↔ 2 ^ BitLenTim ≤ (step g t).gen.bucket := by
  simp only [step]
  split_ifs <;> rw [finish_gen] <;> exact finish_fid_none _ _

/-- Claim C9: decoding relies on arithmetic (sign-extending) shifts, so a
negative input reports `msb = -1` (not `1`) and a sign-extended `tim`
that can never coincide with the 38-bit masked time field, while any
non-negative input reports `msb = 0`. -/
theorem decodeFID_msb_sign (fid : Int) (hlo : -(2 ^ 63) ≤ fid) (hhi : fid < 2 ^ 63) :
    (fid < 0 →
      (DecodeFID fid).msb = -1 ∧
      (DecodeFID fid).tim = Int.fdiv fid (2 ^ 25) ∧
      (DecodeFID fid).tim ≠ maskedTim38 fid) ∧
    (0 ≤ fid → (DecodeFID fid).msb = 0) := by
  constructor
  · intro hneg
    refine ⟨?_, ?_, ?_⟩
    · show Int.fdiv fid (2 ^ 63) = -1
      rw [Int.fdiv_eq_ediv _ (by positivity)]
      omega
    · rfl
    · have ht : (DecodeFID fid).tim < 0 := by
        show Int.fdiv fid (2 ^ (BitLenSeq + BitLenGID)) < 0
        rw [bitLen_sg, Int.fdiv_eq_ediv _ (by positivity)]
        omega
      have hm : 0 ≤ maskedTim38 fid := Int.natCast_nonneg _
      omega
  · intro hpos
    show Int.fdiv fid (2 ^ 63) = 0
    rw [Int.fdiv_eq_ediv _ (by positivity)]
    omega

/-- Witness for C9 at `fid = -1`. -/
theorem decodeFID_msb_sign_witness :
    (-(2 ^ 63) ≤ (-1 : Int)) ∧ ((-1 : Int) < 2 ^ 63) ∧
      (((-1 : Int) < 0 →
        (DecodeFID (-1)).msb = -1 ∧
        (DecodeFID (-1)).tim = Int.fdiv (-1) (2 ^ 25) ∧
        (DecodeFID (-1)).tim ≠ maskedTim38 (-1)) ∧
      (0 ≤ (-1 : Int) → (DecodeFID (-1)).msb = 0)) :=
  ⟨by decide, by decide, decodeFID_msb_sign (-1) (by decide) (by decide)⟩

/-- Claim C5: for every in-range field triple, composing the 64-bit value
`bucket<<25 | seq<<12 | gid` and decoding it with `DecodeFID` recovers
exactly the three fields, with `msb = 0`. -/
theorem decode_roundtrip_layout (bucket : Int) (seq gid : Nat)
    (h0 : 0 ≤ bucket) (h1 : bucket < 2 ^ 38) (h2 : seq < 2 ^ 13) (h3 : gid < 2 ^ 12) :
    DecodeFID (composeFID { epoch := 0, epochns := 0, gid := gid, bucket := bucket, seq := seq }) =
      { fid := composeFID { epoch := 0, epochns := 0, gid := gid, bucket := bucket, seq := seq }
        msb := 0, tim := bucket, seq := (seq : Int), gid := (gid : Int) } :=
  decodeFID_composeFID _ h0 h1 h2 h3

/-- Witness for C5 at `(bucket, seq, gid) = (3, 5, 42)`. -/
theorem decode_roundtrip_layout_witness :
    (0 ≤ (3 : Int)) ∧ ((3 : Int) < 2 ^ 38) ∧ (5 < 2 ^ 13) ∧ (42 < 2 ^ 12) ∧
      DecodeFID (composeFID { epoch := 0, epochns := 0, gid := 42, bucket := 3, seq := 5 }) =
        { fid := composeFID { epoch := 0, epochns := 0, gid := 42, bucket := 3, seq := 5 }
          msb := 0, tim := 3, seq := (5 : Int), gid := (42 : Int) } :=
  ⟨by decide, by decide, by decide, by decide,
    decode_roundtrip_layout 3 5 42 (by decide) (by decide) (by decide) (by decide)⟩

end Zflake

namespace Zflake

theorem wrap64_eq_self (x : Int) (hlo : -(2 ^ 63) ≤ x) (hhi : x < 2 ^ 63) :
    wrap64 x = x := by
  unfold wrap64
  omega

/-- What one returning `NextFID` call does: the invariant is preserved,
the generator ID and epoch are untouched, the returned value is the
composed ID of the updated state, and `(bucket, seq)` strictly increases
lexicographically. -/
theorem step_spec (g : Gen) (t : Int) (hI : Inv g) (hg : g.gid ≤ gidMax) (v : Int)
    (hv : (step g t).fid = some v) :
    Inv (step g t).gen ∧ (step g t).gen.gid = g.gid ∧ (step g t).gen.epochns = g.epochns ∧
      v = composeFID (step g t).gen ∧
      (g.bucket < (step g t).gen.bucket ∨
        (g.bucket = (step g t).gen.bucket ∧ g.seq < (step g t).gen.seq)) := by
  obtain ⟨hb0, hb38, hsq⟩ := hI
  have hseqmax : g.seq ≤ 8191 := hsq
  have hsmax : seqMax = 8191 := rfl
  have hb38L : g.bucket < 2 ^ 38 := by
    have h := hb38
    rw [bitLen_tim] at h
    exact h
  simp only [step] at hv ⊢
  split_ifs at hv ⊢ with h1 h2
  · rw [finish_fid_some] at hv
    rw [finish_gen]
    simp only [Inv]
    dsimp only at hv ⊢
    obtain ⟨hlt, hveq⟩ := hv
    exact ⟨⟨by omega, hlt, by omega⟩, by trivial, by trivial, hveq, Or.inl h1⟩
  · rw [finish_fid_some] at hv
    rw [finish_gen]
    simp only [Inv]
    dsimp only at hv ⊢
    obtain ⟨hlt, hveq⟩ := hv
    have hw : wrap64 (g.bucket + 1) = g.bucket + 1 :=
      wrap64_eq_self _ (by omega) (by omega)
    exact ⟨⟨by omega, hlt, by omega⟩, by trivial, by trivial, hveq, Or.inl (by omega)⟩
  · rw [finish_fid_some] at hv
    rw [finish_gen]
    simp only [Inv]
    dsimp only at hv ⊢
    obtain ⟨hlt, hveq⟩ := hv
    have hmod : (g.seq + 1) % 2 ^ 16 = g.seq + 1 := by omega
    rw [hmod] at h2 hveq ⊢
    exact ⟨⟨hb0, hlt, by omega⟩, by trivial, by trivial, hveq,
      Or.inr ⟨by trivial, by omega⟩⟩

/-- The composed ID of a state satisfying the invariant, in arithmetic
form. -/
theorem composeFID_inv (g : Gen) (hI : Inv g) (hg : g.gid ≤ gidMax) :
    composeFID g = fidVal g := by
  obtain ⟨hb0, hb38, hsq⟩ := hI
  have e1 : (2 : Nat) ^ BitLenSeq = 8192 := rfl
  have e2 : (2 : Nat) ^ BitLenGID = 4096 := rfl
  have e3 : seqMax = 8191 := rfl
  have e4 : gidMax = 4095 := rfl
  unfold fidVal
  exact composeFID_eq g hb0 hb38 (by omega) (by omega)

theorem fidVal_lt (a b : Gen) (hIa : Inv a) (hIb : Inv b) (hgid : a.gid = b.gid)
    (hlex : a.bucket < b.bucket ∨ (a.bucket = b.bucket ∧ a.seq < b.seq)) :
    fidVal a < fidVal b := by
  obtain ⟨ha0, ha38, hasq⟩ := hIa
  obtain ⟨hb0, hb38, hbsq⟩ := hIb
  have hasq' : a.seq ≤ 8191 := hasq
  have hbsq' : b.seq ≤ 8191 := hbsq
  unfold fidVal
  rw [hgid]
  rcases hlex with h | ⟨hb, hs⟩
  · have : (a.seq : Int) ≤ 8191 := by exact_mod_cast hasq'
    have : (0 : Int) ≤ b.seq := by positivity
    omega
  · rw [hb]
    have : (a.seq : Int) < b.seq := by exact_mod_cast hs
    omega

/-- Every ID returned after the state `g` is strictly larger than the
composed ID of `g` itself. -/
theorem run_lt (ts : List Int) : ∀ g : Gen, Inv g → g.gid ≤ gidMax →
    ∀ v ∈ run g ts, fidVal g < v := by
  induction ts with
  | nil => intro g _ _ v hv; simp [run] at hv
  | cons t ts ih =>
    intro g hI hg v hv
    unfold run at hv
    rcases hfid : (step g t).fid with _ | w
    · rw [hfid] at hv
      simp at hv
    · rw [hfid] at hv
      obtain ⟨hI2, hgid2, _, hveq, hlex⟩ := step_spec g t hI hg w hfid
      have hg2 : (step g t).gen.gid ≤ gidMax := by rw [hgid2]; exact hg
      have hwval : w = fidVal (step g t).gen := by
        rw [hveq, composeFID_inv _ hI2 hg2]
      have hstep : fidVal g < fidVal (step g t).gen :=
        fidVal_lt g _ ⟨hI.1, hI.2.1, hI.2.2⟩ hI2 hgid2.symm hlex
      simp only [List.mem_cons] at hv
      rcases hv with rfl | hv
      · omega
      · have := ih (step g t).gen hI2 hg2 v hv
        omega

/-- The IDs of a run are strictly increasing, hence pairwise distinct. -/
theorem run_pairwise_lt (ts : List Int) : ∀ g : Gen, Inv g → g.gid ≤ gidMax →
    (run g ts).Pairwise (· < ·) := by
  induction ts with
  | nil => intro g _ _; simp [run]
  | cons t ts ih =>
    intro g hI hg
    unfold run
    rcases hfid : (step g t).fid with _ | w
    · simp
    · obtain ⟨hI2, hgid2, _, hveq, _⟩ := step_spec g t hI hg w hfid
      have hg2 : (step g t).gen.gid ≤ gidMax := by rw [hgid2]; exact hg
      refine List.Pairwise.cons ?_ (ih _ hI2 hg2)
      intro v hv
      have hwval : w = fidVal (step g t).gen := by
        rw [hveq, composeFID_inv _ hI2 hg2]
      rw [hwval]
      exact run_lt ts _ hI2 hg2 v hv

end Zflake

namespace Zflake

theorem decodeFID_inv (g : Gen) (hI : Inv g) (hg : g.gid ≤ gidMax) :
    DecodeFID (composeFID g) =
      { fid := composeFID g, msb := 0, tim := g.bucket
        seq := (g.seq : Int), gid := (g.gid : Int) } := by
  obtain ⟨hb0, hb38, hsq⟩ := hI
  have e1 : (2 : Nat) ^ BitLenSeq = 8192 := rfl
  have e2 : (2 : Nat) ^ BitLenGID = 4096 := rfl
  have e3 : seqMax = 8191 := rfl
  have e4 : gidMax = 4095 := rfl
  exact decodeFID_composeFID g hb0 hb38 (by omega) (by omega)

/-- Applying constructor options never touches `bucket` or `seq`, and
leaves `gid` either unchanged or set to a validated value. -/
theorem applyOpts_shape (opts : List GenOption) : ∀ gi gi2 : GenInit,
    applyOpts gi opts = some gi2 →
    gi2.gen.bucket = gi.gen.bucket ∧ gi2.gen.seq = gi.gen.seq ∧
      (gi2.gen.gid = gi.gen.gid ∨ gi2.gen.gid ≤ gidMax) := by
  induction opts with
  | nil =>
    intro gi gi2 h
    simp only [applyOpts] at h
    cases h
    exact ⟨rfl, rfl, Or.inl rfl⟩
  | cons o os ih =>
    intro gi gi2 h
    simp only [applyOpts] at h
    rcases ho : applyOpt gi o with _ | gi1
    · rw [ho] at h; cases h
    · rw [ho] at h
      obtain ⟨hb, hs, hgid⟩ := ih gi1 gi2 h
      cases o with
      | gid gv =>
        simp only [applyOpt] at ho
        split_ifs at ho with hcmp
        cases ho
        refine ⟨hb, hs, Or.inr ?_⟩
        rcases hgid with he | hle
        · have he2 : gi2.gen.gid = gv := he
          omega
        · exact hle
      | epoch ns =>
        simp only [applyOpt] at ho
        cases ho
        exact ⟨hb, hs, hgid⟩
      | clock tv =>
        simp only [applyOpt] at ho
        cases ho
        exact ⟨hb, hs, hgid⟩

/-- Every generator actually returned by `NewGen` satisfies the invariant
and carries an in-range generator ID. -/
theorem newGen_inv (sysNow : Int) (opts : List GenOption) (g : Gen)
    (h : NewGen sysNow opts = some (some g)) : Inv g ∧ g.gid ≤ gidMax := by
  unfold NewGen at h
  rcases happ : applyOpts (initGen sysNow) opts with _ | gi
  · rw [happ] at h; cases h
  · rw [happ] at h
    simp only [Option.map_some'] at h
    obtain ⟨hb, hs, hgid⟩ := applyOpts_shape opts _ _ happ
    have hgid0 : gi.gen.gid ≤ gidMax := by
      rcases hgid with he | hle
      · rw [he]; exact Nat.zero_le _
      · exact hle
    have hbi : gi.gen.bucket = 0 := hb
    have hsi : gi.gen.seq = 2 ^ BitLenSeq - 1 := hs
    split_ifs at h with h1 h2
    · injection h with h
      injection h with h
      subst h
      refine ⟨⟨?_, ?_, ?_⟩, hgid0⟩ <;> dsimp only
      · omega
      · rw [hbi]; decide
      · rw [hsi]; decide
    · injection h with h
      cases h
    · injection h with h
      injection h with h
      subst h
      refine ⟨⟨?_, ?_, ?_⟩, hgid0⟩
      · omega
      · rw [hbi]; decide
      · rw [hsi]; decide

/-- Claim C1: every sequence of `NextFID` calls on a generator returned
by `NewGen` yields pairwise distinct IDs, for every behaviour of the
injected clock. -/
theorem nextFID_unique (sysNow : Int) (opts : List GenOption) (g : Gen) (ts : List Int)
    (h : NewGen sysNow opts = some (some g)) :
    (run g ts).Pairwise (· ≠ ·) := by
  obtain ⟨hI, hg⟩ := newGen_inv sysNow opts g h
  exact (run_pairwise_lt ts g hI hg).imp (fun hlt => Int.ne_of_lt hlt)

/-- Witness for C1: a default generator driven by three clock readings
(two of them equal). -/
theorem nextFID_unique_witness :
    NewGen 0 [] = some (some { epoch := 157783680000, epochns := 1577836800000000000
                               gid := 0, bucket := 0, seq := 8191 }) ∧
    (run { epoch := 157783680000, epochns := 1577836800000000000
           gid := 0, bucket := 0, seq := 8191 }
        [1577836800005000000, 1577836800005000000, 1577836800015000000]).Pairwise (· ≠ ·) :=
  ⟨by decide, nextFID_unique 0 [] _ _ (by decide)⟩

theorem step_monoRel (g : Gen) (t : Int) (hI : Inv g) (hg : g.gid ≤ gidMax) (v : Int)
    (hv : (step g t).fid = some v) : monoRel (composeFID g) v := by
  obtain ⟨hI2, hgid2, _, hveq, hlex⟩ := step_spec g t hI hg v hv
  have hg2 : (step g t).gen.gid ≤ gidMax := by rw [hgid2]; exact hg
  unfold monoRel
  rw [hveq, decodeFID_inv g hI hg, decodeFID_inv _ hI2 hg2]
  dsimp only
  constructor
  · rcases hlex with hlt | ⟨heq, _⟩
    · exact le_of_lt hlt
    · exact le_of_eq heq
  · intro _
    rcases hlex with hlt | ⟨heq, hs⟩
    · omega
    · exact_mod_cast hs

theorem run_head_mono (ts : List Int) (g : Gen) (b : Int) (hI : Inv g) (hg : g.gid ≤ gidMax)
    (hb : (run g ts).head? = some b) : monoRel (composeFID g) b := by
  cases ts with
  | nil => simp [run] at hb
  | cons t ts =>
    unfold run at hb
    rcases hfid : (step g t).fid with _ | w
    · rw [hfid] at hb; cases hb
    · rw [hfid] at hb
      simp only [List.head?_cons, Option.some.injEq] at hb
      rw [← hb]
      exact step_monoRel g t hI hg w hfid

theorem run_chain (ts : List Int) : ∀ g : Gen, Inv g → g.gid ≤ gidMax →
    (run g ts).Chain' monoRel := by
  induction ts with
  | nil => intro g _ _; simp [run]
  | cons t ts ih =>
    intro g hI hg
    unfold run
    rcases hfid : (step g t).fid with _ | w
    · simp
    · obtain ⟨hI2, hgid2, _, hveq, _⟩ := step_spec g t hI hg w hfid
      have hg2 : (step g t).gen.gid ≤ gidMax := by rw [hgid2]; exact hg
      rw [List.chain'_cons']
      refine ⟨?_, ih _ hI2 hg2⟩
      intro b hb
      rw [hveq]
      exact run_head_mono ts _ b hI2 hg2 hb

/-- Claim C3: across the `NextFID` calls of a run, the decoded time
bucket never decreases, and between successive IDs with the same bucket
the decoded sequence strictly increases — for every clock behaviour,
including one moving backwards. -/
theorem nextFID_monotone (sysNow : Int) (opts : List GenOption) (g : Gen) (ts : List Int)
    (h : NewGen sysNow opts = some (some g)) :
    (run g ts).Chain' monoRel := by
  obtain ⟨hI, hg⟩ := newGen_inv sysNow opts g h
  exact run_chain ts g hI hg

/-- Witness for C3: a clock that jumps forward, stalls, then jumps
backwards. -/
theorem nextFID_monotone_witness :
    NewGen 0 [] = some (some { epoch := 157783680000, epochns := 1577836800000000000
                               gid := 0, bucket := 0, seq := 8191 }) ∧
    (run { epoch := 157783680000, epochns := 1577836800000000000
           gid := 0, bucket := 0, seq := 8191 }
        [1577836800025000000, 1577836800025000000, 1577836800005000000]).Chain' monoRel :=
  ⟨by decide, nextFID_monotone 0 [] _ _ (by decide)⟩

theorem run_gid (ts : List Int) : ∀ g : Gen, Inv g → g.gid ≤ gidMax →
    ∀ v ∈ run g ts, (DecodeFID v).gid = (g.gid : Int) := by
  induction ts with
  | nil => intro g _ _ v hv; simp [run] at hv
  | cons t ts ih =>
    intro g hI hg v hv
    unfold run at hv
    rcases hfid : (step g t).fid with _ | w
    · rw [hfid] at hv; simp at hv
    · rw [hfid] at hv
      obtain ⟨hI2, hgid2, _, hveq, _⟩ := step_spec g t hI hg w hfid
      have hg2 : (step g t).gen.gid ≤ gidMax := by rw [hgid2]; exact hg
      simp only [List.mem_cons] at hv
      rcases hv with rfl | hv
      · rw [hveq, decodeFID_inv _ hI2 hg2]
        dsimp only
        rw [hgid2]
      · rw [ih _ hI2 hg2 v hv, hgid2]

/-- Claim C10: every ID returned by a generator constructed with
generator ID `g` decodes to exactly that `gid`; buckets and sequence
numbers never spill into the generator-ID bits. -/
theorem nextFID_gid_constant (sysNow : Int) (opts : List GenOption) (g : Gen) (ts : List Int)
    (h : NewGen sysNow opts = some (some g)) :
    ∀ v ∈ run g ts, (DecodeFID v).gid = (g.gid : Int) := by
  obtain ⟨hI, hg⟩ := newGen_inv sysNow opts g h
  exact run_gid ts g hI hg

/-- Witness for C10: generator ID 42; the first returned ID decodes to
gid 42. -/
theorem nextFID_gid_constant_witness :
    NewGen 0 [GenOption.gid 42] =
      some (some { epoch := 157783680000, epochns := 1577836800000000000
                   gid := 42, bucket := 0, seq := 8191 }) ∧
    (33554474 : Int) ∈ run { epoch := 157783680000, epochns := 1577836800000000000
                             gid := 42, bucket := 0, seq := 8191 } [1577836800015000000] ∧
    (DecodeFID 33554474).gid = ((42 : Nat) : Int) :=
  ⟨by decide, by decide,
    nextFID_gid_constant 0 [GenOption.gid 42]
      { epoch := 157783680000, epochns := 1577836800000000000
        gid := 42, bucket := 0, seq := 8191 }
      [1577836800015000000] (by decide) 33554474 (by decide)⟩

end Zflake

namespace Zflake

/-- Claim C4: when the clock is still in the current bucket and the
sequence is exhausted, the call advances the bucket by exactly 1, resets
the sequence to 0, sleeps until the start instant of the new bucket
(`epochns + newBucket * BucketLen`), and returns an ID whose decoded
bucket is the new bucket and whose decoded sequence is 0. -/
theorem nextFID_sequence_overflow (g : Gen) (t : Int) (hI : Inv g) (hg : g.gid ≤ gidMax)
    (hclk : bucketsSince g t = g.bucket)
    (hseq : g.seq = seqMax)
    (hb : g.bucket + 1 < 2 ^ BitLenTim)
    (hlo : -(2 ^ 63) ≤ g.epochns + (g.bucket + 1) * BucketLen)
    (hhi : g.epochns + (g.bucket + 1) * BucketLen < 2 ^ 63) :
    (step g t).gen.bucket = g.bucket + 1 ∧
    (step g t).gen.seq = 0 ∧
    (step g t).sleepTarget = some (g.epochns + (g.bucket + 1) * BucketLen) ∧
    (step g t).fid = some (composeFID (step g t).gen) ∧
    (DecodeFID (composeFID (step g t).gen)).tim = g.bucket + 1 ∧
    (DecodeFID (composeFID (step g t).gen)).seq = 0 := by
  obtain ⟨hb0, hb38, hsq⟩ := hI
  have hbL : (2 : Int) ^ BitLenTim = 2 ^ 38 := by rw [bitLen_tim]
  have hsmax : seqMax = 8191 := rfl
  have hblen : BucketLen = 10000000 := rfl
  have h1 : ¬g.bucket < bucketsSince g t := by omega
  have h2 : seqMax < (g.seq + 1) % 2 ^ 16 := by omega
  have hw : wrap64 (g.bucket + 1) = g.bucket + 1 :=
    wrap64_eq_self _ (by omega) (by omega)
  have hst : (step g t) =
      finish { g with bucket := wrap64 (g.bucket + 1), seq := 0 }
        (some (sleepTargetNs { g with bucket := wrap64 (g.bucket + 1), seq := 0 })) := by
    simp only [step]
    rw [if_neg h1, if_pos h2]
  have hg2def : ({ g with bucket := wrap64 (g.bucket + 1), seq := 0 } : Gen) =
      { g with bucket := g.bucket + 1, seq := 0 } := by rw [hw]
  rw [hst, hg2def]
  have hI2 : Inv { g with bucket := g.bucket + 1, seq := 0 } := by
    refine ⟨?_, ?_, ?_⟩ <;> simp only
    · omega
    · omega
    · exact Nat.zero_le _
  have hg2 : ({ g with bucket := g.bucket + 1, seq := 0 } : Gen).gid ≤ gidMax := hg
  have hsleep : sleepTargetNs { g with bucket := g.bucket + 1, seq := 0 } =
      g.epochns + (g.bucket + 1) * BucketLen := by
    unfold sleepTargetNs
    simp only
    have hin : wrap64 ((g.bucket + 1) * BucketLen) = (g.bucket + 1) * BucketLen := by
      apply wrap64_eq_self <;> rw [hblen] <;> nlinarith
    rw [hin]
    exact wrap64_eq_self _ hlo hhi
  refine ⟨?_, ?_, ?_, ?_, ?_, ?_⟩
  · rw [finish_gen]
  · rw [finish_gen]
  · rw [finish_sleepTarget, hsleep]
  · rw [finish_gen, finish_fid_some]
    exact ⟨by simp only; omega, rfl⟩
  · rw [finish_gen, decodeFID_inv _ hI2 hg2]
  · rw [finish_gen, decodeFID_inv _ hI2 hg2]
    simp

/-- Witness for C4: a fresh default-configuration generator (bucket 0,
seeded seq 8191) with the clock inside bucket 0. -/
theorem nextFID_sequence_overflow_witness :
    ((step { epoch := 157783680000, epochns := 1577836800000000000
             gid := 7, bucket := 0, seq := 8191 } 1577836800003000000).gen.bucket = 0 + 1 ∧
     (step { epoch := 157783680000, epochns := 1577836800000000000
             gid := 7, bucket := 0, seq := 8191 } 1577836800003000000).gen.seq = 0 ∧
     (step { epoch := 157783680000, epochns := 1577836800000000000
             gid := 7, bucket := 0, seq := 8191 } 1577836800003000000).sleepTarget =
       some (1577836800000000000 + (0 + 1) * BucketLen) ∧
     (step { epoch := 157783680000, epochns := 1577836800000000000
             gid := 7, bucket := 0, seq := 8191 } 1577836800003000000).fid =
       some (composeFID (step { epoch := 157783680000, epochns := 1577836800000000000
                                gid := 7, bucket := 0, seq := 8191 } 1577836800003000000).gen) ∧
     (DecodeFID (composeFID (step { epoch := 157783680000, epochns := 1577836800000000000
                                    gid := 7, bucket := 0, seq := 8191 }
         1577836800003000000).gen)).tim = 0 + 1 ∧
     (DecodeFID (composeFID (step { epoch := 157783680000, epochns := 1577836800000000000
                                    gid := 7, bucket := 0, seq := 8191 }
         1577836800003000000).gen)).seq = 0) :=
  nextFID_sequence_overflow
    { epoch := 157783680000, epochns := 1577836800000000000, gid := 7, bucket := 0, seq := 8191 }
    1577836800003000000 (by decide) (by decide) (by decide) (by decide) (by decide)
    (by decide) (by decide)

/-- Amended claim C6: `NewGen` returns `nil` exactly when an `Epoch`
option was applied (so the epoch flag is non-zero) and the configured
epoch instant is strictly later than the clock reading; with the default
epoch the check is skipped and a generator is always returned. -/
theorem newGen_nil_iff (sysNow : Int) (opts : List GenOption) (gi : GenInit)
    (h : applyOpts (initGen sysNow) opts = some gi) :
    (NewGen sysNow opts = some none ↔ gi.gen.epoch ≠ 0 ∧ gi.nowNs < gi.gen.epochns) := by
  unfold NewGen
  rw [h]
  simp only [Option.map_some']
  split_ifs with h1 h2
  · simp [h1]
  · simp [h1, h2]
  · simp [h1, h2]

/-- Witness for C6 (amended): an explicit epoch of 10 ns with an
injected clock reading 0 ns yields `nil`. -/
theorem newGen_nil_iff_witness :
    applyOpts (initGen 0) [GenOption.epoch 10, GenOption.clock 0] =
      some { gen := { epoch := 157783680000, epochns := 10, gid := 0, bucket := 0, seq := 8191 }
             nowNs := 0 } ∧
    (NewGen 0 [GenOption.epoch 10, GenOption.clock 0] = some none ↔
      ({ gen := { epoch := 157783680000, epochns := 10, gid := 0, bucket := 0, seq := 8191 }
         nowNs := 0 } : GenInit).gen.epoch ≠ 0 ∧
      ({ gen := { epoch := 157783680000, epochns := 10, gid := 0, bucket := 0, seq := 8191 }
         nowNs := 0 } : GenInit).nowNs <
      ({ gen := { epoch := 157783680000, epochns := 10, gid := 0, bucket := 0, seq := 8191 }
         nowNs := 0 } : GenInit).gen.epochns) :=
  ⟨by decide,
    newGen_nil_iff 0 [GenOption.epoch 10, GenOption.clock 0]
      { gen := { epoch := 157783680000, epochns := 10, gid := 0, bucket := 0, seq := 8191 }
        nowNs := 0 } (by decide)⟩

/-- Counterexample to claim C6 as stated: with an injected clock reading
the Unix epoch (10⁹ ns before the default 2020 epoch) and no `Epoch`
option, the configured (default) epoch is strictly in the future of the
clock, yet `NewGen` returns a generator rather than `nil`. -/
theorem newGen_future_default_epoch_counterexample :
    NewGen 1000000000 [GenOption.clock 1000000000] =
      some (some { epoch := 157783680000, epochns := 1577836800000000000
                   gid := 0, bucket := 0, seq := 8191 }) ∧
    (1000000000 : Int) < DefaultEpoch := by
  constructor
  · decide
  · decide

end Zflake

namespace Base62

theorem canonFuel_zero : ∀ f : Nat, canonFuel f 0 = [] := by
  intro f
  cases f <;> simp [canonFuel]

theorem canonFuel_ne_nil : ∀ (f : Nat) (v : Nat), v ≠ 0 → v < 62 ^ f →
    canonFuel f v ≠ [] := by
  intro f v hv hb
  cases f with
  | zero => omega
  | succ f => simp [canonFuel, hv]

theorem canonFuel_congr : ∀ (f1 f2 v : Nat), v < 62 ^ f1 → v < 62 ^ f2 →
    canonFuel f1 v = canonFuel f2 v := by
  intro f1
  induction f1 with
  | zero =>
    intro f2 v h1 _
    have : v = 0 := by simpa using h1
    subst this
    rw [canonFuel_zero, canonFuel_zero]
  | succ f1 ih =>
    intro f2 v h1 h2
    cases f2 with
    | zero =>
      have : v = 0 := by simpa using h2
      subst this
      rw [canonFuel_zero, canonFuel_zero]
    | succ f2 =>
      by_cases hv : v = 0
      · subst hv
        rw [canonFuel_zero, canonFuel_zero]
      · have hd1 : v / 62 < 62 ^ f1 := by
          apply Nat.div_lt_of_lt_mul
          rw [Nat.mul_comm]
          simpa [Nat.pow_succ] using h1
        have hd2 : v / 62 < 62 ^ f2 := by
          apply Nat.div_lt_of_lt_mul
          rw [Nat.mul_comm]
          simpa [Nat.pow_succ] using h2
        simp only [canonFuel, hv, if_false]
        rw [ih f2 (v / 62) hd1 hd2]

theorem canonFuel_length_le : ∀ (f v : Nat), (canonFuel f v).length ≤ f := by
  intro f
  induction f with
  | zero => intro v; simp [canonFuel]
  | succ f ih =>
    intro v
    by_cases hv : v = 0
    · subst hv
      simp [canonFuel_zero]
    · simp only [canonFuel, hv, if_false, List.length_append, List.length_singleton]
      have := ih (v / 62)
      omega

theorem canonFuel_lt_pow : ∀ (f v : Nat), v < 62 ^ f →
    v < 62 ^ (canonFuel f v).length := by
  intro f
  induction f with
  | zero =>
    intro v h
    have hv0 : v = 0 := by simpa using h
    subst hv0
    simp [canonFuel]
  | succ f ih =>
    intro v h
    by_cases hv : v = 0
    · subst hv
      simp [canonFuel_zero]
    · have hd : v / 62 < 62 ^ f := by
        apply Nat.div_lt_of_lt_mul
        rw [Nat.mul_comm]
        simpa [Nat.pow_succ] using h
      have := ih (v / 62) hd
      simp only [canonFuel, hv, if_false, List.length_append, List.length_singleton]
      have hv62 : v < (v / 62 + 1) * 62 := by omega
      calc v < (v / 62 + 1) * 62 := hv62
        _ ≤ 62 ^ (canonFuel f (v / 62)).length * 62 := by
              have : v / 62 + 1 ≤ 62 ^ (canonFuel f (v / 62)).length := this
              exact Nat.mul_le_mul_right 62 this
        _ = 62 ^ ((canonFuel f (v / 62)).length + 1) := by rw [Nat.pow_succ]

theorem alphaChar_ne_zero : ∀ d : Nat, d < 62 → d ≠ 0 → alphaChar d ≠ '0' := by decide

theorem alphaChar_zero : alphaChar 0 = '0' := by decide

theorem canonFuel_head : ∀ (f v : Nat), v ≠ 0 → v < 62 ^ f →
    ∀ c ∈ (canonFuel f v).head?, c ≠ '0' := by
  intro f
  induction f with
  | zero => intro v hv hb; omega
  | succ f ih =>
    intro v hv hb c hc
    simp only [canonFuel, hv, if_false] at hc
    by_cases hq : v / 62 = 0
    · rw [hq, canonFuel_zero] at hc
      simp only [List.nil_append, List.head?_cons, Option.mem_def, Option.some.injEq] at hc
      subst hc
      have hvs : v < 62 := by omega
      have hmod : v % 62 = v := Nat.mod_eq_of_lt hvs
      rw [hmod]
      exact alphaChar_ne_zero v hvs hv
    · have hd : v / 62 < 62 ^ f := by
        apply Nat.div_lt_of_lt_mul
        rw [Nat.mul_comm]
        simpa [Nat.pow_succ] using hb
      rcases hcf : canonFuel f (v / 62) with _ | ⟨a, l⟩
      · exact absurd hcf (canonFuel_ne_nil f (v / 62) hq hd)
      · rw [hcf] at hc
        simp only [List.cons_append, List.head?_cons, Option.mem_def, Option.some.injEq] at hc
        subst hc
        have ha := ih (v / 62) hq hd a
        rw [hcf] at ha
        exact ha (by simp)

/-- The filling loop of `Encode` writes the canonical digits of `q`
right-aligned in `count` cells and pads the rest with `'0'`. -/
theorem fillChars_eq : ∀ (count q : Nat) (acc : List Char), q < 62 ^ count →
    fillChars count q acc =
      List.replicate (count - (canonFuel count q).length) '0' ++ canonFuel count q ++ acc := by
  intro count
  induction count with
  | zero =>
    intro q acc h
    have : q = 0 := by simpa using h
    subst this
    simp [fillChars, canonFuel]
  | succ count ih =>
    intro q acc h
    by_cases hq : q = 0
    · subst hq
      have h0 : (0 : Nat) / 62 = 0 := by norm_num
      simp only [fillChars, h0]
      rw [ih 0 _ (by positivity)]
      rw [canonFuel_zero, canonFuel_zero]
      simp only [List.length_nil, Nat.sub_zero, List.append_nil, List.nil_append]
      have hm : (0 : Nat) % 62 = 0 := by norm_num
      rw [hm, alphaChar_zero, List.replicate_succ', List.append_assoc]
      rfl
    · have hd : q / 62 < 62 ^ count := by
        apply Nat.div_lt_of_lt_mul
        rw [Nat.mul_comm]
        simpa [Nat.pow_succ] using h
      simp only [fillChars]
      rw [ih (q / 62) _ hd]
      simp only [canonFuel, hq, if_false, List.length_append, List.length_singleton]
      have hle : (canonFuel count (q / 62)).length + 1 ≤ count + 1 := by
        have := canonFuel_length_le count (q / 62)
        omega
      have hsub : count + 1 - ((canonFuel count (q / 62)).length + 1) =
          count - (canonFuel count (q / 62)).length := by omega
      rw [hsub]
      simp [List.append_assoc]

end Base62

namespace Base62

/-- Amended claim C7: for every non-zero 64-bit `v`, `Encode v` is the
canonical minimal-length most-significant-first base62 representation of
`v` left-padded with `'0'` symbols up to the length computed by the
floating-point formula `int(log(float64(v))/log(62) + 1)`; whenever that
formula returns the true digit count the output is exactly the
minimal-length representation and its first character is not `'0'`. -/
theorem encode_canonical_padded (v : Nat) (hv : v ≠ 0) (hb : v < 2 ^ 64)
    (hn : len62 v ≤ (encLen v).toNat) :
    Encode v =
      String.mk (List.replicate ((encLen v).toNat - len62 v) '0' ++ (canon62 v).toList) ∧
    ((encLen v).toNat = len62 v →
      Encode v = canon62 v ∧ (Encode v).length = len62 v ∧
        ∀ c ∈ (Encode v).toList.head?, c ≠ '0') := by
  have h64 : v < 62 ^ 64 := by
    calc v < 2 ^ 64 := hb
      _ ≤ 62 ^ 64 := Nat.pow_le_pow_left (by norm_num) 64
  have hlenpos : 1 ≤ len62 v := by
    unfold len62
    rcases hcf : canonFuel 64 v with _ | ⟨a, l⟩
    · exact absurd hcf (canonFuel_ne_nil 64 v hv h64)
    · simp
  have hn1 : 1 ≤ (encLen v).toNat := le_trans hlenpos hn
  set n := (encLen v).toNat with hndef
  have hvlt : v < 62 ^ len62 v := by
    unfold len62
    exact canonFuel_lt_pow 64 v h64
  have hvn : v < 62 ^ n := by
    calc v < 62 ^ len62 v := hvlt
      _ ≤ 62 ^ n := Nat.pow_le_pow_right (by norm_num) hn
  have hdn : v / 62 < 62 ^ (n - 1) := by
    apply Nat.div_lt_of_lt_mul
    rw [Nat.mul_comm]
    have : 62 ^ (n - 1) * 62 = 62 ^ n := by
      rw [← Nat.pow_succ]
      congr 1
      omega
    omega
  have henc : Encode v =
      String.mk (fillChars (n - 1) (v / 62) [alphaChar (v % 62)]) := by
    unfold Encode
    rw [if_neg hv]
  have hcanon : canonFuel (n - 1) (v / 62) ++ [alphaChar (v % 62)] = canonFuel 64 v := by
    have hn2 : n = (n - 1) + 1 := by omega
    have : canonFuel ((n - 1) + 1) v = canonFuel (n - 1) (v / 62) ++ [alphaChar (v % 62)] := by
      simp [canonFuel, hv]
    rw [← this]
    apply canonFuel_congr
    · rw [← hn2]; exact hvn
    · exact h64
  have hlen' : (canonFuel (n - 1) (v / 62)).length = len62 v - 1 := by
    have := congrArg List.length hcanon
    simp only [List.length_append, List.length_singleton] at this
    unfold len62
    omega
  have hfill := fillChars_eq (n - 1) (v / 62) [alphaChar (v % 62)] hdn
  have hmain : Encode v =
      String.mk (List.replicate (n - len62 v) '0' ++ (canon62 v).toList) := by
    rw [henc, hfill, hlen']
    have hpad : n - 1 - (len62 v - 1) = n - len62 v := by omega
    rw [hpad]
    have htl : (canon62 v).toList = canonFuel 64 v := by
      unfold canon62
      rw [if_neg hv]
      rfl
    rw [htl, List.append_assoc, hcanon]
  refine ⟨hmain, fun heq => ?_⟩
  have hzero : n - len62 v = 0 := by omega
  have hev : Encode v = canon62 v := by
    rw [hmain, hzero]
    simp only [List.replicate_zero, List.nil_append]
    unfold canon62
    rw [if_neg hv]
    rfl
  refine ⟨hev, ?_, ?_⟩
  · rw [hev]
    unfold canon62 len62
    rw [if_neg hv]
    rfl
  · intro c hc
    rw [hev] at hc
    unfold canon62 at hc
    rw [if_neg hv] at hc
    exact canonFuel_head 64 v hv h64 c hc

set_option maxRecDepth 40000 in
/-- Witness for the amended C7 at `v = 100` (`"1c"`), where the float
length formula is exact. -/
theorem encode_canonical_padded_witness :
    ((100 : Nat) ≠ 0) ∧ ((100 : Nat) < 2 ^ 64) ∧ (len62 100 ≤ (encLen 100).toNat) ∧
    (Encode 100 =
      String.mk (List.replicate ((encLen 100).toNat - len62 100) '0' ++ (canon62 100).toList) ∧
    ((encLen 100).toNat = len62 100 →
      Encode 100 = canon62 100 ∧ (Encode 100).length = len62 100 ∧
        ∀ c ∈ (Encode 100).toList.head?, c ≠ '0')) :=
  ⟨by decide, by decide, by decide,
    encode_canonical_padded 100 (by decide) (by decide) (by decide)⟩

set_option maxRecDepth 40000 in
/-- Counterexample to claim C7 as stated: at `v = 62 ^ 9 - 1` the
floating-point length formula of `Encode` overshoots (ten symbols
instead of nine), so the output starts with a `'0'` symbol and is not
the minimal-length representation. -/
theorem encode_not_minimal_counterexample :
    Encode 13537086546263551 = "0zzzzzzzzz" ∧
    (13537086546263551 : Nat) = 62 ^ 9 - 1 ∧
    canon62 13537086546263551 = "zzzzzzzzz" := by
  refine ⟨by decide, by decide, by decide⟩

end Base62
